import Mathlib

/-!
Verification of the IDR/CC pipeline core (bundle_pipeline) against its
natural-language specification.

The Python sources embedded here:
* `moving_average` from `CC_analysis_MARCOIL/export_plot_data.py` and the
  textually identical copy in `CC_analysis_MARCOIL/plot_combined_analysis.py`;
* `flags_to_intervals` from `plot_overlay_threshold_basic.py` (the copy in
  `export_region_summary.py` only adds an empty-list early return);
* the pixel-threshold recoloring loop shared by
  `apply_threshold_lightening` (`plot_combined_analysis.py`),
  `darken_threshold` (`plot_combined_dark_theme.py`, same loop on the 0-1
  scale) and `apply_threshold_to_image` (`plot_overlay_threshold_basic.py`);
* the aligned-frame construction of `export_combined_csv`
  (`plot_combined_analysis.py`) / `export_plot_data`.

Python floats are modelled as exact rationals, Python ints as `Int`/`Nat`,
exceptions as `Except`/`Option` (`none` models an uncaught exception).
-/

namespace IdrCc

/-! ## SmoothingFilter: `moving_average` (export_plot_data.py, lines 64-92) -/

/-- The list `valid_averages`: the mean of each contiguous length-`w` slice
`data[i:i+w]` for `i` in `range(len(data) - w + 1)`. -/
def sliceMeans (data : List ℚ) (w : ℕ) : List ℚ :=
  (List.range (data.length - w + 1)).map fun i => ((data.drop i).take w).sum / (w : ℚ)

/-- `moving_average(data, window)` from `export_plot_data.py`.
`Except.error` models the `ValueError`s raised by the source; the guards are
checked in source order (empty input returns `[]` before any validation).
In the final branch `valid_averages` is nonempty (`window ≤ len(data)` and
`data ≠ []`), so `headD`/`getLastD` coincide with the source's
`valid_averages[0]` / `valid_averages[-1]`. -/
def moving_average (data : List ℚ) (window : ℤ) : Except String (List ℚ) :=
  if data = [] then .ok []
  else if window ≤ 0 then .error "window size must be positive"
  else if window % 2 = 0 then .error "centered moving average requires an odd window size"
  else if (data.length : ℤ) < window then
    .ok (List.replicate data.length (data.sum / (data.length : ℚ)))
  else
    .ok (List.replicate (window.toNat / 2) ((sliceMeans data window.toNat).headD 0)
         ++ sliceMeans data window.toNat
         ++ List.replicate (window.toNat / 2) ((sliceMeans data window.toNat).getLastD 0))

/-- `moving_average(data, window)` from `plot_combined_analysis.py`,
lines 47-75: an independent, textually identical copy of the routine in
`export_plot_data.py`. -/
def moving_average_plot (data : List ℚ) (window : ℤ) : Except String (List ℚ) :=
  if data = [] then .ok []
  else if window ≤ 0 then .error "window size must be positive"
  else if window % 2 = 0 then .error "centered moving average requires an odd window size"
  else if (data.length : ℤ) < window then
    .ok (List.replicate data.length (data.sum / (data.length : ℚ)))
  else
    .ok (List.replicate (window.toNat / 2) ((sliceMeans data window.toNat).headD 0)
         ++ sliceMeans data window.toNat
         ++ List.replicate (window.toNat / 2) ((sliceMeans data window.toNat).getLastD 0))

/-! ## IntervalExtractor: `flags_to_intervals`
(plot_overlay_threshold_basic.py, lines 57-67; the copy in
export_region_summary.py, lines 72-84, only adds an early return for `[]`,
which the loop handles identically.) -/

/-- The forward scan of `flags_to_intervals`: `n` is `len(flags)`, `i` the
1-based position of the head of the remaining list, `st` the `start`
variable (`none` models Python's `None`), `out` the accumulated intervals. -/
def flagsLoop (n : ℕ) : List Bool → ℕ → Option ℕ → List (ℕ × ℕ) → List (ℕ × ℕ)
  | [], _, _, out => out
  | val :: rest, i, st, out =>
    match (if val ∧ st = none then some i else st) with
    | some s =>
        if ¬ val = true ∨ i = n then
          flagsLoop n rest (i + 1) none (out ++ [(s, if val ∧ i = n then i else i - 1)])
        else
          flagsLoop n rest (i + 1) (some s) out
    | none => flagsLoop n rest (i + 1) none out

/-- `flags_to_intervals(flags)`: maximal runs of `True` as 1-based inclusive
`(start, end)` pairs. -/
def flags_to_intervals (flags : List Bool) : List (ℕ × ℕ) :=
  flagsLoop flags.length flags 1 none []

/-- Specification-side recursion: the maximal runs of `true` in `rest`, with
the head of `rest` sitting at position `i`. -/
def runs : ℕ → List Bool → List (ℕ × ℕ)
  | _, [] => []
  | i, false :: rest => runs (i + 1) rest
  | i, true :: rest =>
    match runs (i + 1) rest with
    | [] => [(i, i)]
    | (s, e) :: tail => if s = i + 1 then (i, e) :: tail else (i, i) :: (s, e) :: tail

/-- Specification-side state for an open run started at `s`, scanning from
position `i`. -/
def openRuns (s : ℕ) : ℕ → List Bool → List (ℕ × ℕ)
  | _, [] => []
  | i, false :: rest => (s, i - 1) :: runs (i + 1) rest
  | i, [true] => [(s, i)]
  | i, true :: b :: rest => openRuns s (i + 1) (b :: rest)

/-! ## PixelThresholdRecolorer

Common core of `apply_threshold_lightening` (plot_combined_analysis.py,
lines 148-196, mode `lighten`, tolerance 230, image on the 0-255 scale),
the per-axis loop of `darken_threshold` (plot_combined_dark_theme.py,
lines 231-251, mode `darken`; there the image and tolerance are divided by
255, which rescales to tolerance 0.6*255 here) and `apply_threshold_to_image`
(plot_overlay_threshold_basic.py, lines 147-167, vectorized form of the same
loop). Pixels are RGB triples of exact rationals on the 0-255 scale; an
image is a function from (row, column) to pixels; `none` models an uncaught
`ZeroDivisionError`. The source loop writes each pixel at most once and
reads only that pixel, so the in-place mutation is a pointwise update. -/

abbrev Pix := ℚ × ℚ × ℚ

/-- Pixel bounding box (`left_px`, `right_px`, `top_px`, `bottom_px`, ints
from the bbox-to-pixel conversion) and data-space Y limits of one axis. -/
structure AxisGeom where
  left : ℤ
  right : ℤ
  top : ℤ
  bottom : ℤ
  ylo : ℚ
  yhi : ℚ

inductive BlendMode where
  | lighten
  | darken
deriving DecidableEq

/-- `lighten`: `pixel*α + 255*(1-α)`; `darken`: `pixel*α`. -/
def blendPixel : BlendMode → ℚ → Pix → Pix
  | .lighten, a, p =>
      (p.1 * a + 255 * (1 - a), p.2.1 * a + 255 * (1 - a), p.2.2 * a + 255 * (1 - a))
  | .darken, a, p => (p.1 * a, p.2.1 * a, p.2.2 * a)

/-- `target_color = np.array(color_rgb) * 255`. -/
def scale255 (c : Pix) : Pix := (c.1 * 255, c.2.1 * 255, c.2.2 * 255)

def colorDistSq (p t : Pix) : ℚ :=
  (p.1 - t.1) * (p.1 - t.1) + (p.2.1 - t.2.1) * (p.2.1 - t.2.1) +
    (p.2.2 - t.2.2) * (p.2.2 - t.2.2)

/-- `np.linalg.norm(pixel - target) < tol`, stated on squares (for positive
`tol` the comparisons agree; for `tol ≤ 0` the norm comparison is false). -/
abbrev colorMatch (p t : Pix) (tol : ℚ) : Prop := 0 < tol ∧ colorDistSq p t < tol * tol

/-- `threshold_y_pixel = top + (bottom - top) * (1 - (T - ylo)/(yhi - ylo))`. -/
def thresholdRowPx (g : AxisGeom) (T : ℚ) : ℚ :=
  (g.top : ℚ) + ((g.bottom : ℚ) - (g.top : ℚ)) * (1 - (T - g.ylo) / (g.yhi - g.ylo))

/-- `start_x = max(0, left_px - 5)`. -/
def startX (g : AxisGeom) : ℤ := max 0 (g.left - 5)

/-- Loop membership and replacement test for pixel (row `y`, column `x`):
`x` in `range(start_x, min(right_px + 1, width))`, `y` in
`range(max(0, top_px), min(bottom_px + 1, height))`, `y` at or below the
threshold row, and the pixel color-matches the scaled target. -/
abbrev pixCond (width height : ℕ) (g : AxisGeom) (colorRGB : Pix) (tol T : ℚ)
    (img : ℕ → ℕ → Pix) (y x : ℕ) : Prop :=
  startX g ≤ (x : ℤ) ∧ (x : ℤ) ≤ g.right ∧ x < width ∧
  g.top ≤ (y : ℤ) ∧ (y : ℤ) ≤ g.bottom ∧ y < height ∧
  thresholdRowPx g T ≤ (y : ℚ) ∧ colorMatch (img y x) (scale255 colorRGB) tol

/-- The pixel loop of one recoloring entry as a pointwise image update. -/
def recolorBody (width height : ℕ) (g : AxisGeom) (colorRGB : Pix) (tol T a : ℚ)
    (mode : BlendMode) (img : ℕ → ℕ → Pix) : ℕ → ℕ → Pix :=
  fun y x =>
    if pixCond width height g colorRGB tol T img y x then blendPixel mode a (img y x)
    else img y x

/-- One recoloring entry. The division
`(T - ylo) / (yhi - ylo)` in the source raises `ZeroDivisionError` when
`yhi = ylo`, modelled by `none`; no other statement of the loop can raise. -/
def applyEntry (width height : ℕ) (g : AxisGeom) (colorRGB : Pix) (tol T a : ℚ)
    (mode : BlendMode) (img : ℕ → ℕ → Pix) : Option (ℕ → ℕ → Pix) :=
  if g.yhi - g.ylo = 0 then none
  else some (recolorBody width height g colorRGB tol T a mode img)

/-! ## SignalAligner: aligned frame
(`export_combined_csv`, plot_combined_analysis.py, lines 199-266; the
zero-filling lookup `cc_data_map.get(pos, {}).get('prob_orig', 0.0)` of
export_plot_data.py, lines 130-140, is the same alignment without the
source tag.) -/

structure CCEntry where
  position : ℕ
  probability : ℚ
  heptad : String
deriving DecidableEq

structure AlignedRow where
  position : ℕ
  cc_orig : ℚ
  cc_ma : ℚ
  heptad : String
  source : String
deriving DecidableEq

/-- One Python-dict insertion: the new key shadows previous entries. -/
def ccInsert (d : ℕ → Option (ℚ × ℚ × String)) (em : CCEntry × ℚ) :
    ℕ → Option (ℚ × ℚ × String) :=
  fun q => if q = em.1.position then some (em.1.probability, em.2, em.1.heptad) else d q

/-- The dict `cc_map` built by inserting `zip(cc_entries, cc_ma_values)` in
order (later inserts overwrite earlier ones, as in a Python dict). -/
def ccMap (entries : List CCEntry) (maVals : List ℚ) : ℕ → Option (ℚ × ℚ × String) :=
  (entries.zip maVals).foldl ccInsert (fun _ => none)

/-- The row emitted for one dense position: observed positions copy the
MARCOIL values with source `"MARCOIL"`; absent positions are zero-filled
with heptad sentinel `"N/A"` and source `"Filled (0.0%)"`. -/
def alignRow (entries : List CCEntry) (maVals : List ℚ) (pos : ℕ) : AlignedRow :=
  match ccMap entries maVals pos with
  | some v => ⟨pos, v.1, v.2.1, v.2.2, "MARCOIL"⟩
  | none => ⟨pos, 0, 0, "N/A", "Filled (0.0%)"⟩

/-- The aligned frame: one row per dense position, in order. -/
def alignedRows (dPos : List ℕ) (entries : List CCEntry) (maVals : List ℚ) :
    List AlignedRow :=
  dPos.map (alignRow entries maVals)

/-! Helper lemmas about `sliceMeans`. -/

theorem sliceMeans_length (data : List ℚ) (w : ℕ) :
    (sliceMeans data w).length = data.length - w + 1 := by
  simp [sliceMeans]

theorem sliceMeans_headD (data : List ℚ) (w : ℕ) :
    (sliceMeans data w).headD 0 = (data.take w).sum / (w : ℚ) := by
  unfold sliceMeans
  rw [List.range_succ_eq_map]
  simp

theorem sliceMeans_getLastD (data : List ℚ) (w : ℕ) :
    (sliceMeans data w).getLastD 0 =
      ((data.drop (data.length - w)).take w).sum / (w : ℚ) := by
  unfold sliceMeans
  rw [List.range_succ, List.map_append]
  simp

/-- An odd positive integer window, viewed as a natural number, satisfies
`w / 2 = (w - 1) / 2`. -/
theorem odd_toNat_div2 (window : ℤ) (h1 : 1 ≤ window) (hodd : window % 2 = 1) :
    window.toNat / 2 = (window.toNat - 1) / 2 := by
  obtain ⟨k, hk⟩ : ∃ k : ℕ, window.toNat = 2 * k + 1 := by
    refine ⟨(window / 2).toNat, ?_⟩
    have h2 : window = 2 * (window / 2) + 1 := by
      conv_lhs => rw [← Int.ediv_add_emod window 2]
      rw [hodd]
    have hge : 0 ≤ window / 2 := by positivity
    omega
  omega

/-- C3. For every list of reals and every odd window `w ≥ 1`, `moving_average`
succeeds; its output has exactly `N = data.length` elements; if `N < w` every
output element is the arithmetic mean of all inputs; otherwise the output is
the `N - w + 1` means of the contiguous length-`w` slices with `(w-1)/2`
copies of the first valid mean prepended and `(w-1)/2` copies of the last
valid mean appended. -/
theorem moving_average_shape (data : List ℚ) (window : ℤ)
    (h1 : 1 ≤ window) (hodd : window % 2 = 1) :
    ∃ out, moving_average data window = .ok out ∧ out.length = data.length ∧
      (((data.length : ℤ) < window →
          out = List.replicate data.length (data.sum / (data.length : ℚ))) ∧
       (window ≤ (data.length : ℤ) →
          out = List.replicate ((window.toNat - 1) / 2)
                  ((data.take window.toNat).sum / (window.toNat : ℚ))
                ++ sliceMeans data window.toNat
                ++ List.replicate ((window.toNat - 1) / 2)
                  (((data.drop (data.length - window.toNat)).take window.toNat).sum
                    / (window.toNat : ℚ)))) := by
  have hpos : ¬ window ≤ 0 := by omega
  have heven : ¬ window % 2 = 0 := by omega
  by_cases hempty : data = []
  · refine ⟨[], ?_, ?_, ?_, ?_⟩
    · simp [moving_average, hempty]
    · simp [hempty]
    · intro _; simp [hempty]
    · intro hle; exfalso; rw [hempty] at hle; simp at hle; omega
  · by_cases hshort : (data.length : ℤ) < window
    · refine ⟨List.replicate data.length (data.sum / (data.length : ℚ)), ?_, ?_, ?_, ?_⟩
      · simp [moving_average, hempty, hpos, heven, hshort]
      · simp
      · intro _; rfl
      · intro hle; exact absurd hle (by omega)
    · have hle : window ≤ (data.length : ℤ) := by omega
      have hw : window.toNat ≤ data.length := by omega
      have hwpos : 1 ≤ window.toNat := by omega
      refine ⟨List.replicate (window.toNat / 2) ((sliceMeans data window.toNat).headD 0)
              ++ sliceMeans data window.toNat
              ++ List.replicate (window.toNat / 2) ((sliceMeans data window.toNat).getLastD 0),
          ?_, ?_, ?_, ?_⟩
      · simp [moving_average, hempty, hpos, heven, hshort]
      · rw [List.length_append, List.length_append, List.length_replicate,
          List.length_replicate, sliceMeans_length]
        omega
      · intro hlt; exact absurd hlt hshort
      · intro _
        rw [odd_toNat_div2 window h1 hodd, sliceMeans_headD, sliceMeans_getLastD]

/-- Witness for C3 at `data = [1, 2, 3, 4, 5]`, `window = 3`. -/
theorem moving_average_shape_witness :
    ∃ out, moving_average [1, 2, 3, 4, 5] 3 = .ok out ∧
      out.length = ([1, 2, 3, 4, 5] : List ℚ).length ∧
      ((([1, 2, 3, 4, 5] : List ℚ).length : ℤ) < 3 →
          out = List.replicate ([1, 2, 3, 4, 5] : List ℚ).length
            (([1, 2, 3, 4, 5] : List ℚ).sum / (([1, 2, 3, 4, 5] : List ℚ).length : ℚ))) ∧
      ((3 : ℤ) ≤ (([1, 2, 3, 4, 5] : List ℚ).length : ℤ) →
          out = List.replicate (((3 : ℤ).toNat - 1) / 2)
                  ((([1, 2, 3, 4, 5] : List ℚ).take (3 : ℤ).toNat).sum / (((3 : ℤ).toNat : ℚ)))
                ++ sliceMeans [1, 2, 3, 4, 5] (3 : ℤ).toNat
                ++ List.replicate (((3 : ℤ).toNat - 1) / 2)
                  (((([1, 2, 3, 4, 5] : List ℚ).drop
                      (([1, 2, 3, 4, 5] : List ℚ).length - (3 : ℤ).toNat)).take (3 : ℤ).toNat).sum
                    / (((3 : ℤ).toNat : ℚ)))) :=
  moving_average_shape [1, 2, 3, 4, 5] 3 (by norm_num) (by norm_num)

/-- C4 counterexample. `moving_average([1,2,3,4,5], 3)` returns
`[2.0, 2.0, 3.0, 4.0, 4.0]` (edge replication of the first/last valid mean),
not the claimed `[1.5, 2.0, 3.0, 4.0, 4.5]` (which would be the shrinking
partial-window policy the spec itself excludes in its smoothing contract). -/
theorem moving_average_example_cx :
    moving_average [1, 2, 3, 4, 5] 3 = .ok [2, 2, 3, 4, 4] ∧
    ([2, 2, 3, 4, 4] : List ℚ) ≠ [1.5, 2.0, 3.0, 4.0, 4.5] := by
  constructor
  · unfold moving_average sliceMeans
    norm_num [List.range_succ, Int.toNat]
    intro h; exact absurd h (by simp)
  · norm_num

/-- C4 amended. `moving_average([1,2,3,4,5], 3) = [2.0, 2.0, 3.0, 4.0, 4.0]`. -/
theorem moving_average_example :
    moving_average [1, 2, 3, 4, 5] 3 = .ok [2, 2, 3, 4, 4] := by
  unfold moving_average sliceMeans
  norm_num [List.range_succ, Int.toNat]
  intro h; exact absurd h (by simp)

/-- C8 counterexample. On the empty input sequence `moving_average` returns
`[]` before validating the window, so the even window `2` raises no error. -/
theorem moving_average_empty_even_no_error :
    moving_average [] 2 = .ok [] ∧ (2 : ℤ) % 2 = 0 := by
  constructor
  · rfl
  · decide

/-- C8 amended. For every NON-EMPTY input sequence, a non-positive window
raises `ValueError "window size must be positive"` and a positive even window
raises `ValueError "centered moving average requires an odd window size"`;
the empty sequence returns `[]` without any window validation. -/
theorem moving_average_invalid_window (data : List ℚ) (window : ℤ)
    (hne : data ≠ []) :
    (window ≤ 0 → moving_average data window = .error "window size must be positive") ∧
    (0 < window → window % 2 = 0 →
      moving_average data window =
        .error "centered moving average requires an odd window size") := by
  constructor
  · intro hle
    simp [moving_average, hne, hle]
  · intro hpos heven
    have : ¬ window ≤ 0 := by omega
    simp [moving_average, hne, this, heven]

/-- Witness for C8 (amended) at `data = [1]`, `window = 2` and `window = 0`. -/
theorem moving_average_invalid_window_witness :
    moving_average [1] 2 = .error "centered moving average requires an odd window size" ∧
    moving_average [1] 0 = .error "window size must be positive" :=
  ⟨(moving_average_invalid_window [1] 2 (by simp)).2 (by norm_num) (by norm_num),
   (moving_average_invalid_window [1] 0 (by simp)).1 (by norm_num)⟩


/-- Every run produced by `runs i rest` starts at or after `i`, is ordered,
and ends before position `i + rest.length`. -/
theorem runs_bounds (rest : List Bool) : ∀ (i : ℕ) (q : ℕ × ℕ),
    q ∈ runs i rest → i ≤ q.1 ∧ q.1 ≤ q.2 ∧ q.2 < i + rest.length := by
  induction rest with
  | nil => intro i q hq; simp [runs] at hq
  | cons b r ihr =>
    intro i q hq
    cases b with
    | false =>
      rw [show runs i (false :: r) = runs (i + 1) r from rfl] at hq
      have := ihr (i + 1) q hq
      simp only [List.length_cons]
      omega
    | true =>
      rw [show runs i (true :: r) = (match runs (i + 1) r with
            | [] => [(i, i)]
            | (s, e) :: tail =>
                if s = i + 1 then (i, e) :: tail else (i, i) :: (s, e) :: tail) from rfl] at hq
      cases hr : runs (i + 1) r with
      | nil =>
        rw [hr] at hq
        simp at hq
        subst hq
        simp only [List.length_cons]
        omega
      | cons q0 t =>
        obtain ⟨s, e⟩ := q0
        rw [hr] at hq
        have hhead := ihr (i + 1) (s, e) (by rw [hr]; exact List.mem_cons_self _ _)
        by_cases hs : s = i + 1
        · simp only [hs, if_pos rfl] at hq
          rcases List.mem_cons.mp hq with h | h
          · subst h
            simp only [List.length_cons] at *
            omega
          · have := ihr (i + 1) q (by rw [hr]; exact List.mem_cons_of_mem _ h)
            simp only [List.length_cons]
            omega
        · simp only [if_neg hs] at hq
          rcases List.mem_cons.mp hq with h | h
          · subst h
            simp only [List.length_cons]
            omega
          · have := ihr (i + 1) q (by rw [hr]; exact h)
            simp only [List.length_cons]
            omega

/-- Scanning an open run started at `s` from position `i + 1`: the result
merges the run with the first run of the remainder when that run is
adjacent, and closes at `i` otherwise. -/
theorem openRuns_shift (rest : List Bool) : rest ≠ [] → ∀ (i s : ℕ),
    openRuns s (i + 1) rest =
      (match runs (i + 1) rest with
       | [] => [(s, i)]
       | (s', e) :: tail =>
           if s' = i + 1 then (s, e) :: tail else (s, i) :: (s', e) :: tail) := by
  induction rest with
  | nil => intro h; exact absurd rfl h
  | cons b r ihr =>
    intro _ i s
    cases b with
    | false =>
      rw [show openRuns s (i + 1) (false :: r) = (s, i + 1 - 1) :: runs (i + 1 + 1) r from rfl,
        show runs (i + 1) (false :: r) = runs (i + 1 + 1) r from rfl]
      cases hr : runs (i + 1 + 1) r with
      | nil => simp
      | cons q t =>
        obtain ⟨s', e⟩ := q
        have hb := runs_bounds r (i + 1 + 1) (s', e) (by rw [hr]; exact List.mem_cons_self _ _)
        have hs : ¬ s' = i + 1 := by omega
        simp [hs]
    | true =>
      cases r with
      | nil =>
        rw [show openRuns s (i + 1) [true] = [(s, i + 1)] from rfl,
          show runs (i + 1) [true] = [(i + 1, i + 1)] from rfl]
        simp
      | cons b' r' =>
        rw [show openRuns s (i + 1) (true :: b' :: r') = openRuns s (i + 1 + 1) (b' :: r') from rfl,
          ihr (by simp) (i + 1) s]
        rw [show runs (i + 1) (true :: b' :: r') = (match runs (i + 1 + 1) (b' :: r') with
              | [] => [(i + 1, i + 1)]
              | (s', e) :: tail =>
                  if s' = i + 1 + 1 then (i + 1, e) :: tail
                  else (i + 1, i + 1) :: (s', e) :: tail) from rfl]
        cases hr : runs (i + 1 + 1) (b' :: r') with
        | nil => simp
        | cons q t =>
          obtain ⟨s', e⟩ := q
          by_cases hs : s' = i + 1 + 1
          · simp [hs]
          · simp [hs]

/-- The scan loop computes `runs` (closed state) and `openRuns` (open
state), provided `n + 1 = i + rest.length` (i.e. `rest` covers positions
`i..n`). -/
theorem flagsLoop_spec (n : ℕ) (rest : List Bool) : ∀ (i : ℕ) (out : List (ℕ × ℕ)),
    n + 1 = i + rest.length →
    (flagsLoop n rest i none out = out ++ runs i rest ∧
     ∀ s, flagsLoop n rest i (some s) out = out ++ openRuns s i rest) := by
  induction rest with
  | nil =>
    intro i out _
    constructor
    · rw [show flagsLoop n [] i none out = out from rfl]; simp [runs]
    · intro s; rw [show flagsLoop n [] i (some s) out = out from rfl]; simp [openRuns]
  | cons val rest ihr =>
    intro i out hn
    have hn' : n + 1 = (i + 1) + rest.length := by
      simp only [List.length_cons] at hn; omega
    constructor
    · cases val with
      | false =>
        have h1 : flagsLoop n (false :: rest) i none out = flagsLoop n rest (i + 1) none out := by
          simp [flagsLoop]
        rw [h1, (ihr (i + 1) out hn').1]
        rfl
      | true =>
        by_cases hin : i = n
        · have hrest : rest = [] := by
            simp only [List.length_cons] at hn
            exact List.eq_nil_of_length_eq_zero (by omega)
          subst hrest
          have h1 : flagsLoop n [true] i none out = out ++ [(i, i)] := by
            simp [flagsLoop, hin]
          rw [h1]
          rfl
        · have hne : rest ≠ [] := by
            intro h
            subst h
            simp only [List.length_cons, List.length_nil] at hn
            omega
          have h1 : flagsLoop n (true :: rest) i none out =
              flagsLoop n rest (i + 1) (some i) out := by
            simp [flagsLoop, hin]
          rw [h1, (ihr (i + 1) out hn').2 i, openRuns_shift rest hne i i]
          rw [show runs i (true :: rest) = (match runs (i + 1) rest with
                | [] => [(i, i)]
                | (s, e) :: tail =>
                    if s = i + 1 then (i, e) :: tail else (i, i) :: (s, e) :: tail) from rfl]
    · intro s
      cases val with
      | false =>
        have h1 : flagsLoop n (false :: rest) i (some s) out =
            flagsLoop n rest (i + 1) none (out ++ [(s, i - 1)]) := by
          simp [flagsLoop]
        rw [h1, (ihr (i + 1) (out ++ [(s, i - 1)]) hn').1]
        rw [show openRuns s i (false :: rest) = (s, i - 1) :: runs (i + 1) rest from rfl]
        simp
      | true =>
        by_cases hin : i = n
        · have hrest : rest = [] := by
            simp only [List.length_cons] at hn
            exact List.eq_nil_of_length_eq_zero (by omega)
          subst hrest
          have h1 : flagsLoop n [true] i (some s) out = out ++ [(s, i)] := by
            simp [flagsLoop, hin]
          rw [h1]
          rfl
        · have hne : rest ≠ [] := by
            intro h
            subst h
            simp only [List.length_cons, List.length_nil] at hn
            omega
          obtain ⟨b, r, rfl⟩ : ∃ b r, rest = b :: r := by
            cases rest with
            | nil => exact absurd rfl hne
            | cons b r => exact ⟨b, r, rfl⟩
          have h1 : flagsLoop n (true :: b :: r) i (some s) out =
              flagsLoop n (b :: r) (i + 1) (some s) out := by
            simp [flagsLoop, hin]
          rw [h1, (ihr (i + 1) out hn').2 s]
          rfl

/-- `flags_to_intervals` computes the maximal runs from position 1. -/
theorem flags_to_intervals_eq_runs (flags : List Bool) :
    flags_to_intervals flags = runs 1 flags := by
  have h := (flagsLoop_spec flags.length flags 1 [] (by omega)).1
  simpa [flags_to_intervals] using h

/-- Successive runs are separated by at least one position. -/
theorem runs_pairwise (rest : List Bool) : ∀ i,
    List.Pairwise (fun a b : ℕ × ℕ => a.2 + 1 < b.1) (runs i rest) := by
  induction rest with
  | nil => intro i; simp [runs]
  | cons b r ihr =>
    intro i
    cases b with
    | false =>
      rw [show runs i (false :: r) = runs (i + 1) r from rfl]
      exact ihr (i + 1)
    | true =>
      rw [show runs i (true :: r) = (match runs (i + 1) r with
            | [] => [(i, i)]
            | (s, e) :: tail =>
                if s = i + 1 then (i, e) :: tail else (i, i) :: (s, e) :: tail) from rfl]
      cases hr : runs (i + 1) r with
      | nil => simp
      | cons q0 t =>
        obtain ⟨s, e⟩ := q0
        have hp := ihr (i + 1)
        rw [hr] at hp
        have hb := runs_bounds r (i + 1) (s, e) (by rw [hr]; exact List.mem_cons_self _ _)
        by_cases hs : s = i + 1
        · simp only [if_pos hs]
          refine List.pairwise_cons.mpr ⟨?_, (List.pairwise_cons.mp hp).2⟩
          intro q hq
          exact (List.pairwise_cons.mp hp).1 q hq
        · simp only [if_neg hs]
          refine List.pairwise_cons.mpr ⟨?_, hp⟩
          intro q hq
          rcases List.mem_cons.mp hq with h | h
          · subst h; simp only; omega
          · have h1 := (List.pairwise_cons.mp hp).1 q h
            simp only at h1 ⊢
            omega

/-- The positions covered by `runs i rest` are exactly the positions whose
flag is `true`. -/
theorem runs_cover (rest : List Bool) : ∀ (i p : ℕ),
    (∃ q ∈ runs i rest, q.1 ≤ p ∧ p ≤ q.2) ↔
    (∃ j, j < rest.length ∧ rest.getD j false = true ∧ p = i + j) := by
  induction rest with
  | nil => intro i p; simp [runs]
  | cons b r ihr =>
    intro i p
    cases b with
    | false =>
      rw [show runs i (false :: r) = runs (i + 1) r from rfl, ihr (i + 1) p]
      constructor
      · rintro ⟨j, hj, hg, hp⟩
        exact ⟨j + 1, by simpa using hj, by simpa using hg, by omega⟩
      · rintro ⟨j, hj, hg, hp⟩
        cases j with
        | zero => simp at hg
        | succ j' =>
          exact ⟨j', by simp at hj; omega, by simpa using hg, by omega⟩
    | true =>
      have hRHS : (∃ j, j < (true :: r).length ∧ (true :: r).getD j false = true ∧ p = i + j) ↔
          (p = i ∨ ∃ j, j < r.length ∧ r.getD j false = true ∧ p = (i + 1) + j) := by
        constructor
        · rintro ⟨j, hj, hg, hp⟩
          cases j with
          | zero => left; omega
          | succ j' =>
            right; exact ⟨j', by simp at hj; omega, by simpa using hg, by omega⟩
        · rintro (hp | ⟨j, hj, hg, hp⟩)
          · exact ⟨0, by simp, by simp, by omega⟩
          · exact ⟨j + 1, by simp; omega, by simpa using hg, by omega⟩
      rw [hRHS, ← ihr (i + 1) p]
      rw [show runs i (true :: r) = (match runs (i + 1) r with
            | [] => [(i, i)]
            | (s, e) :: tail =>
                if s = i + 1 then (i, e) :: tail else (i, i) :: (s, e) :: tail) from rfl]
      cases hr : runs (i + 1) r with
      | nil =>
        simp only [List.mem_singleton]
        constructor
        · rintro ⟨q, hq, h1, h2⟩
          subst hq; left; simp only at h1 h2; omega
        · rintro (hp | ⟨q, hq, _, _⟩)
          · exact ⟨(i, i), rfl, by omega, by omega⟩
          · simp at hq
      | cons q0 t =>
        obtain ⟨s, e⟩ := q0
        have hb := runs_bounds r (i + 1) (s, e) (by rw [hr]; exact List.mem_cons_self _ _)
        by_cases hs : s = i + 1
        · simp only [if_pos hs]
          constructor
          · rintro ⟨q, hq, h1, h2⟩
            rcases List.mem_cons.mp hq with h | h
            · subst h
              simp only at h1 h2
              by_cases hpi : p = i
              · exact Or.inl hpi
              · exact Or.inr ⟨(s, e), List.mem_cons_self _ _, by omega, by omega⟩
            · exact Or.inr ⟨q, List.mem_cons_of_mem _ h, h1, h2⟩
          · rintro (hp | ⟨q, hq, h1, h2⟩)
            · exact ⟨(i, e), List.mem_cons_self _ _, by omega, by omega⟩
            · rcases List.mem_cons.mp hq with h | h
              · subst h
                exact ⟨(i, e), List.mem_cons_self _ _, by simp only at h1 ⊢; omega,
                  by simpa using h2⟩
              · exact ⟨q, List.mem_cons_of_mem _ h, h1, h2⟩
        · simp only [if_neg hs]
          constructor
          · rintro ⟨q, hq, h1, h2⟩
            rcases List.mem_cons.mp hq with h | h
            · subst h; simp only at h1 h2; left; omega
            · exact Or.inr ⟨q, h, h1, h2⟩
          · rintro (hp | ⟨q, hq, h1, h2⟩)
            · exact ⟨(i, i), List.mem_cons_self _ _, by omega, by omega⟩
            · exact ⟨q, List.mem_cons_of_mem _ hq, h1, h2⟩

/-- All-true input of length `m + 1` yields the single run `(i, i + m)`. -/
theorem runs_replicate_true (m : ℕ) : ∀ i,
    runs i (List.replicate (m + 1) true) = [(i, i + m)] := by
  induction m with
  | zero => intro i; simp [runs]
  | succ m ihm =>
    intro i
    rw [show List.replicate (m + 2) true = true :: List.replicate (m + 1) true from rfl]
    rw [show runs i (true :: List.replicate (m + 1) true) =
          (match runs (i + 1) (List.replicate (m + 1) true) with
           | [] => [(i, i)]
           | (s, e) :: tail =>
               if s = i + 1 then (i, e) :: tail else (i, i) :: (s, e) :: tail) from rfl]
    rw [ihm (i + 1)]
    have harith : i + 1 + m = i + (m + 1) := by omega
    rw [harith]
    simp

/-- All-false input yields no runs. -/
theorem runs_replicate_false (m : ℕ) : ∀ i, runs i (List.replicate m false) = [] := by
  induction m with
  | zero => intro i; rfl
  | succ m ihm =>
    intro i
    rw [show List.replicate (m + 1) false = false :: List.replicate m false from rfl,
      show runs i (false :: List.replicate m false) = runs (i + 1) (List.replicate m false)
        from rfl]
    exact ihm (i + 1)

/-- Two members of a gap-separated interval list are equal or separated by
at least one position, in one order or the other. -/
theorem pairwise_sep_cases {I : List (ℕ × ℕ)}
    (hpw : List.Pairwise (fun a b : ℕ × ℕ => a.2 + 1 < b.1) I)
    {a b : ℕ × ℕ} (ha : a ∈ I) (hb : b ∈ I) :
    a = b ∨ a.2 + 1 < b.1 ∨ b.2 + 1 < a.1 := by
  obtain ⟨i, hi, rfl⟩ := List.getElem_of_mem ha
  obtain ⟨j, hj, rfl⟩ := List.getElem_of_mem hb
  rcases lt_trichotomy i j with h | h | h
  · exact Or.inr (Or.inl (List.pairwise_iff_getElem.mp hpw i j hi hj h))
  · subst h; exact Or.inl rfl
  · exact Or.inr (Or.inr (List.pairwise_iff_getElem.mp hpw j i hj hi h))

/-- C5. `flags_to_intervals` returns exactly the maximal runs of `true` as
1-based inclusive pairs: every interval satisfies `1 ≤ start ≤ end ≤ N`;
successive intervals are separated by at least one false position, hence
pairwise non-overlapping and sorted strictly ascending by start (also stated
explicitly); the covered positions are exactly the true positions; every
interval is maximal (the position before its start and the position after
its end, when inside `1..N`, carry a false flag); all-true input yields
`[(1, N)]`; all-false input yields `[]`; and when flag `N` is true some
interval closes exactly at `N`. -/
theorem flags_to_intervals_spec (flags : List Bool) :
    (∀ q ∈ flags_to_intervals flags, 1 ≤ q.1 ∧ q.1 ≤ q.2 ∧ q.2 ≤ flags.length) ∧
    List.Pairwise (fun a b : ℕ × ℕ => a.2 + 1 < b.1) (flags_to_intervals flags) ∧
    List.Pairwise (fun a b : ℕ × ℕ => a.1 < b.1 ∧ a.2 < b.1) (flags_to_intervals flags) ∧
    (∀ p : ℕ, (∃ q ∈ flags_to_intervals flags, q.1 ≤ p ∧ p ≤ q.2) ↔
       (1 ≤ p ∧ p ≤ flags.length ∧ flags.getD (p - 1) false = true)) ∧
    (∀ q ∈ flags_to_intervals flags,
       (q.1 = 1 ∨ flags.getD (q.1 - 2) false = false) ∧
       (q.2 = flags.length ∨ flags.getD q.2 false = false)) ∧
    ((∀ b ∈ flags, b = true) → 1 ≤ flags.length →
       flags_to_intervals flags = [(1, flags.length)]) ∧
    ((∀ b ∈ flags, b = false) → flags_to_intervals flags = []) ∧
    (flags.getD (flags.length - 1) false = true → 1 ≤ flags.length →
       ∃ s, (s, flags.length) ∈ flags_to_intervals flags) := by
  rw [flags_to_intervals_eq_runs]
  have hbounds : ∀ q ∈ runs 1 flags, 1 ≤ q.1 ∧ q.1 ≤ q.2 ∧ q.2 ≤ flags.length := by
    intro q hq
    have := runs_bounds flags 1 q hq
    omega
  have hpw := runs_pairwise flags 1
  have hcov : ∀ p : ℕ, (∃ q ∈ runs 1 flags, q.1 ≤ p ∧ p ≤ q.2) ↔
      (1 ≤ p ∧ p ≤ flags.length ∧ flags.getD (p - 1) false = true) := by
    intro p
    rw [runs_cover flags 1 p]
    constructor
    · rintro ⟨j, hj, hg, hp⟩
      refine ⟨by omega, by omega, ?_⟩
      have hj2 : p - 1 = j := by omega
      rw [hj2]; exact hg
    · rintro ⟨h1, h2, hg⟩
      exact ⟨p - 1, by omega, hg, by omega⟩
  refine ⟨hbounds, hpw, ?_, hcov, ?_, ?_, ?_, ?_⟩
  · refine List.Pairwise.imp_of_mem ?_ hpw
    intro a b ha hb hab
    have := hbounds a ha
    omega
  · intro q hq
    have hqb := hbounds q hq
    constructor
    · by_cases h1 : q.1 = 1
      · exact Or.inl h1
      · refine Or.inr ?_
        by_contra hne
        have htrue : flags.getD (q.1 - 2) false = true := by
          cases hgd : flags.getD (q.1 - 2) false
          · exact absurd hgd hne
          · rfl
        obtain ⟨q', hq', ha, hb2⟩ :
            ∃ q' ∈ runs 1 flags, q'.1 ≤ q.1 - 1 ∧ q.1 - 1 ≤ q'.2 := by
          refine (hcov (q.1 - 1)).mpr ⟨by omega, by omega, ?_⟩
          have harith : q.1 - 1 - 1 = q.1 - 2 := by omega
          rw [harith]; exact htrue
        have hq'b := hbounds q' hq'
        rcases pairwise_sep_cases hpw hq hq' with h | h | h
        · subst h; omega
        · omega
        · omega
    · by_cases h2 : q.2 = flags.length
      · exact Or.inl h2
      · refine Or.inr ?_
        by_contra hne
        have htrue : flags.getD q.2 false = true := by
          cases hgd : flags.getD q.2 false
          · exact absurd hgd hne
          · rfl
        obtain ⟨q', hq', ha, hb2⟩ :
            ∃ q' ∈ runs 1 flags, q'.1 ≤ q.2 + 1 ∧ q.2 + 1 ≤ q'.2 := by
          refine (hcov (q.2 + 1)).mpr ⟨by omega, by omega, ?_⟩
          have harith : q.2 + 1 - 1 = q.2 := by omega
          rw [harith]; exact htrue
        have hq'b := hbounds q' hq'
        rcases pairwise_sep_cases hpw hq hq' with h | h | h
        · subst h; omega
        · omega
        · omega
  · intro hall hlen
    have hrep : flags = List.replicate flags.length true :=
      List.eq_replicate_iff.mpr ⟨rfl, hall⟩
    obtain ⟨m, hm⟩ : ∃ m, flags.length = m + 1 := ⟨flags.length - 1, by omega⟩
    conv_lhs => rw [hrep, hm]
    rw [runs_replicate_true m 1, hm]
    congr 2
    omega
  · intro hall
    have hrep : flags = List.replicate flags.length false :=
      List.eq_replicate_iff.mpr ⟨rfl, hall⟩
    conv_lhs => rw [hrep]
    exact runs_replicate_false flags.length 1
  · intro hlast hlen
    have hcov : ∃ q ∈ runs 1 flags, q.1 ≤ flags.length ∧ flags.length ≤ q.2 :=
      (runs_cover flags 1 flags.length).mpr ⟨flags.length - 1, by omega, hlast, by omega⟩
    obtain ⟨q, hq, h1, h2⟩ := hcov
    have hb := runs_bounds flags 1 q hq
    obtain ⟨s, e⟩ := q
    simp only at h1 h2 hb
    have : e = flags.length := by omega
    exact ⟨s, by rw [← this]; exact hq⟩

/-- Witness for C5 at `flags = [true, true, false, true]` (`N = 4`): position
4 is covered, and some interval closes exactly at 4. -/
theorem flags_to_intervals_spec_witness :
    (∃ q ∈ flags_to_intervals [true, true, false, true], q.1 ≤ 4 ∧ 4 ≤ q.2) ∧
    ∃ s, (s, 4) ∈ flags_to_intervals [true, true, false, true] :=
  ⟨((flags_to_intervals_spec [true, true, false, true]).2.2.2.1 4).mpr
      ⟨by norm_num, by norm_num, by norm_num⟩,
   (flags_to_intervals_spec [true, true, false, true]).2.2.2.2.2.2.2
      (by norm_num) (by norm_num)⟩


/-- C1. A pixel strictly above the computed threshold row, or strictly
outside the axis's column span widened 5 pixels to the left, or whose RGB
distance to the scaled target is not below the tolerance, is left unchanged;
and any changed pixel lies inside the widened column span, at or below the
threshold row, and color-matches. -/
theorem recolor_untouched (width height : ℕ) (g : AxisGeom) (colorRGB : Pix)
    (tol T a : ℚ) (mode : BlendMode) (img : ℕ → ℕ → Pix) (y x : ℕ) :
    (((y : ℚ) < thresholdRowPx g T ∨ ((x : ℤ) < g.left - 5 ∨ g.right < (x : ℤ)) ∨
        ¬ colorMatch (img y x) (scale255 colorRGB) tol) →
      recolorBody width height g colorRGB tol T a mode img y x = img y x) ∧
    (recolorBody width height g colorRGB tol T a mode img y x ≠ img y x →
      (g.left - 5 ≤ (x : ℤ) ∧ (x : ℤ) ≤ g.right ∧ thresholdRowPx g T ≤ (y : ℚ) ∧
        colorMatch (img y x) (scale255 colorRGB) tol)) := by
  constructor
  · intro hcase
    have hnc : ¬ pixCond width height g colorRGB tol T img y x := by
      rintro ⟨h1, h2, _, _, _, _, h7, h8⟩
      rcases hcase with h | h | h
      · exact absurd h7 (not_le.mpr h)
      · rcases h with h | h
        · have h9 : g.left - 5 ≤ (x : ℤ) := le_trans (le_max_right 0 (g.left - 5)) h1
          omega
        · omega
      · exact h h8
    simp [recolorBody, hnc]
  · intro hne
    by_cases hc : pixCond width height g colorRGB tol T img y x
    · obtain ⟨h1, h2, _, _, _, _, h7, h8⟩ := hc
      exact ⟨le_trans (le_max_right 0 (g.left - 5)) h1, h2, h7, h8⟩
    · exact absurd (by simp [recolorBody, hc]) hne

/-- Witness for C1: a white pixel does not match the blue target, so it is
unchanged. -/
theorem recolor_untouched_witness :
    recolorBody 1 1 ⟨0, 0, 0, 0, 0, 100⟩ (0, 0, 1) 230 50 (1 / 2) .lighten
      (fun _ _ => ((255 : ℚ), 255, 255)) 0 0 = ((255 : ℚ), 255, 255) :=
  (recolor_untouched 1 1 ⟨0, 0, 0, 0, 0, 100⟩ (0, 0, 1) 230 50 (1 / 2) .lighten
      (fun _ _ => ((255 : ℚ), 255, 255)) 0 0).1
    (Or.inr (Or.inr (by norm_num [colorMatch, colorDistSq, scale255])))

/-- C2 counterexample. With degenerate Y limits `ylo = yhi = 50` the entry
raises `ZeroDivisionError` (`none`) instead of short-circuiting without
error. -/
theorem recolor_degenerate_raises :
    applyEntry 12 12 ⟨0, 10, 0, 10, 50, 50⟩ (0, 0, 1) 230 50 (1 / 5) .lighten
      (fun _ _ => ((0 : ℚ), 0, 255)) = none := by
  norm_num [applyEntry]

/-- C2 amended. A recoloring entry raises (`none`) exactly when
`ylo = yhi`; degenerate zero-width or zero-height pixel bounding boxes do
NOT short-circuit: the entry completes and may still modify matching pixels
(shown at a zero-width box, column `left = right = 3`, and a zero-height
box, row `top = bottom = 4`). -/
theorem recolor_degenerate_amended :
    (∀ (width height : ℕ) (g : AxisGeom) (colorRGB : Pix) (tol T a : ℚ)
        (mode : BlendMode) (img : ℕ → ℕ → Pix),
        applyEntry width height g colorRGB tol T a mode img = none ↔ g.yhi = g.ylo) ∧
    (∃ f, applyEntry 10 10 ⟨3, 3, 0, 5, 0, 100⟩ (0, 0, 1) 230 50 (1 / 2) .lighten
        (fun _ _ => ((0 : ℚ), 0, 255)) = some f ∧ f 3 3 ≠ ((0 : ℚ), 0, 255)) ∧
    (∃ f, applyEntry 10 10 ⟨0, 5, 4, 4, 0, 100⟩ (0, 0, 1) 230 50 (1 / 2) .lighten
        (fun _ _ => ((0 : ℚ), 0, 255)) = some f ∧ f 4 2 ≠ ((0 : ℚ), 0, 255)) := by
  refine ⟨?_, ?_, ?_⟩
  · intro width height g colorRGB tol T a mode img
    constructor
    · intro hnone
      by_contra hne
      have h : ¬ (g.yhi - g.ylo = 0) := fun h0 => hne (sub_eq_zero.mp h0)
      unfold applyEntry at hnone
      rw [if_neg h] at hnone
      exact Option.noConfusion hnone
    · intro hy
      unfold applyEntry
      rw [if_pos (sub_eq_zero.mpr hy)]
  · refine ⟨recolorBody 10 10 ⟨3, 3, 0, 5, 0, 100⟩ (0, 0, 1) 230 50 (1 / 2) .lighten
      (fun _ _ => ((0 : ℚ), 0, 255)), ?_, by
        norm_num [recolorBody, pixCond, colorMatch, colorDistSq, scale255, thresholdRowPx,
          startX, blendPixel, Prod.ext_iff]⟩
    unfold applyEntry
    rw [if_neg (by norm_num)]
  · refine ⟨recolorBody 10 10 ⟨0, 5, 4, 4, 0, 100⟩ (0, 0, 1) 230 50 (1 / 2) .lighten
      (fun _ _ => ((0 : ℚ), 0, 255)), ?_, by
        norm_num [recolorBody, pixCond, colorMatch, colorDistSq, scale255, thresholdRowPx,
          startX, blendPixel, Prod.ext_iff]⟩
    unfold applyEntry
    rw [if_neg (by norm_num)]

/-- Witness for C2 (amended): a non-degenerate span never yields `none`,
and `ylo = yhi = 7` yields `none`. -/
theorem recolor_degenerate_amended_witness :
    applyEntry 1 1 ⟨0, 0, 0, 0, 7, 7⟩ (1, 0, 0) 230 50 (1 / 2) .darken
      (fun _ _ => ((255 : ℚ), 0, 0)) = none :=
  (recolor_degenerate_amended.1 1 1 ⟨0, 0, 0, 0, 7, 7⟩ (1, 0, 0) 230 50 (1 / 2) .darken
      (fun _ _ => ((255 : ℚ), 0, 0))).mpr rfl

/-- C9. The recoloring is not idempotent: on a 1-by-1 blue raster with the
blue target, one lightening pass (α = 1/2) yields pixel
`(127.5, 127.5, 255)`, a second identical pass yields `(191.25, 191.25,
255)` — the twice-recolored raster differs from the once-recolored one. -/
theorem recolor_not_idempotent :
    ((applyEntry 1 1 ⟨0, 0, 0, 0, 0, 100⟩ (0, 0, 1) 230 50 (1 / 2) .lighten
        (fun _ _ => ((0 : ℚ), 0, 255))).map (fun f => f 0 0) =
      some (255 / 2, 255 / 2, 255)) ∧
    (((applyEntry 1 1 ⟨0, 0, 0, 0, 0, 100⟩ (0, 0, 1) 230 50 (1 / 2) .lighten
        (fun _ _ => ((0 : ℚ), 0, 255))).bind
          (applyEntry 1 1 ⟨0, 0, 0, 0, 0, 100⟩ (0, 0, 1) 230 50 (1 / 2) .lighten)).map
        (fun f => f 0 0) = some (765 / 4, 765 / 4, 255)) ∧
    ((765 / 4 : ℚ), (765 / 4 : ℚ), (255 : ℚ)) ≠ ((255 / 2 : ℚ), (255 / 2 : ℚ), (255 : ℚ)) := by
  refine ⟨?_, ?_, ?_⟩
  · norm_num [applyEntry, recolorBody, pixCond, colorMatch, colorDistSq, scale255,
      thresholdRowPx, startX, blendPixel, Prod.ext_iff]
  · norm_num [applyEntry, recolorBody, pixCond, colorMatch, colorDistSq, scale255,
      thresholdRowPx, startX, blendPixel, Prod.ext_iff, Option.bind]
  · norm_num [Prod.ext_iff]


theorem ccMap_foldl_not_mem (l : List (CCEntry × ℚ)) :
    ∀ (d : ℕ → Option (ℚ × ℚ × String)) (q : ℕ),
    (∀ em ∈ l, em.1.position ≠ q) → l.foldl ccInsert d q = d q := by
  induction l with
  | nil => intro d q _; rfl
  | cons em t iht =>
    intro d q hq
    rw [List.foldl_cons, iht (ccInsert d em) q (fun e he => hq e (List.mem_cons_of_mem _ he))]
    unfold ccInsert
    rw [if_neg (fun h => hq em (List.mem_cons_self _ _) h.symm)]

theorem ccMap_foldl_mem (l : List (CCEntry × ℚ)) :
    ∀ (d : ℕ → Option (ℚ × ℚ × String)) (e : CCEntry) (m : ℚ),
    (e, m) ∈ l → (l.map (fun em => em.1.position)).Nodup →
    l.foldl ccInsert d e.position = some (e.probability, m, e.heptad) := by
  induction l with
  | nil => intro d e m h _; simp at h
  | cons em t iht =>
    intro d e m hmem hnd
    rw [List.foldl_cons]
    rcases List.mem_cons.mp hmem with h | h
    · have hni : ∀ em2 ∈ t, em2.1.position ≠ e.position := by
        intro em2 hem2 heq
        have hnotin := (List.nodup_cons.mp hnd).1
        rw [← h] at hnotin
        exact hnotin (List.mem_map.mpr ⟨em2, hem2, by rw [heq]⟩)
      rw [ccMap_foldl_not_mem t _ e.position hni]
      unfold ccInsert
      rw [← h, if_pos rfl]
    · exact iht (ccInsert d em) e m h (List.nodup_cons.mp hnd).2

theorem exists_zip_pair (entries : List CCEntry) : ∀ (maVals : List ℚ),
    maVals.length = entries.length → ∀ e ∈ entries, ∃ m, (e, m) ∈ entries.zip maVals := by
  induction entries with
  | nil => intro maVals _ e he; simp at he
  | cons e0 t iht =>
    intro maVals hlen e he
    cases maVals with
    | nil => simp at hlen
    | cons m0 mt =>
      rcases List.mem_cons.mp he with h | h
      · exact ⟨m0, by rw [h]; exact List.mem_cons_self _ _⟩
      · obtain ⟨m, hm⟩ := iht mt (by simpa using hlen) e h
        exact ⟨m, List.mem_cons_of_mem _ hm⟩

theorem zip_positions_nodup (entries : List CCEntry) (maVals : List ℚ)
    (hlen : maVals.length = entries.length)
    (hnodup : (entries.map (fun e => e.position)).Nodup) :
    ((entries.zip maVals).map (fun em => em.1.position)).Nodup := by
  have h1 : ((entries.zip maVals).map (fun em : CCEntry × ℚ => em.1.position)) =
      ((entries.zip maVals).map Prod.fst).map (fun e => e.position) := by
    rw [List.map_map]; rfl
  rw [h1, List.map_fst_zip entries maVals (by omega)]
  exact hnodup

/-- Observed position: the row copies the entry's probability and is marked
`"MARCOIL"`. -/
theorem alignRow_observed (entries : List CCEntry) (maVals : List ℚ)
    (hlen : maVals.length = entries.length)
    (hnodup : (entries.map (fun e => e.position)).Nodup)
    (e : CCEntry) (he : e ∈ entries) :
    ∃ m, alignRow entries maVals e.position =
      ⟨e.position, e.probability, m, e.heptad, "MARCOIL"⟩ := by
  obtain ⟨m, hm⟩ := exists_zip_pair entries maVals hlen e he
  refine ⟨m, ?_⟩
  unfold alignRow ccMap
  rw [ccMap_foldl_mem (entries.zip maVals) _ e m hm
    (zip_positions_nodup entries maVals hlen hnodup)]

/-- Unobserved position: the row is zero-filled with the sentinel tag. -/
theorem alignRow_filled (entries : List CCEntry) (maVals : List ℚ) (pos : ℕ)
    (habs : ∀ e ∈ entries, e.position ≠ pos) :
    alignRow entries maVals pos = ⟨pos, 0, 0, "N/A", "Filled (0.0%)"⟩ := by
  unfold alignRow ccMap
  rw [ccMap_foldl_not_mem (entries.zip maVals) _ pos
    (fun em hem => habs em.1 (List.of_mem_zip hem).1)]

/-- C6. For a dense axis `1..N` and a sparse signal with pairwise distinct
positions: the frame has one row per position; a row whose position carries
a sparse entry copies that entry's probability exactly and is marked
`"MARCOIL"` (observed); every other row has `cc_orig = 0`, the absent
sentinel `"N/A"` and source `"Filled (0.0%)"`. -/
theorem alignedRows_spec (N : ℕ) (entries : List CCEntry) (maVals : List ℚ)
    (hlen : maVals.length = entries.length)
    (hnodup : (entries.map (fun e => e.position)).Nodup) :
    (alignedRows (List.range' 1 N) entries maVals).length = N ∧
    ∀ j, j < N →
      ((alignedRows (List.range' 1 N) entries maVals).getD j ⟨0, 0, 0, "", ""⟩ =
        alignRow entries maVals (1 + j)) ∧
      (∀ e ∈ entries, e.position = 1 + j →
        (alignRow entries maVals (1 + j)).cc_orig = e.probability ∧
        (alignRow entries maVals (1 + j)).source = "MARCOIL") ∧
      ((∀ e ∈ entries, e.position ≠ 1 + j) →
        alignRow entries maVals (1 + j) = ⟨1 + j, 0, 0, "N/A", "Filled (0.0%)"⟩) := by
  have hlen' : (alignedRows (List.range' 1 N) entries maVals).length = N := by
    simp [alignedRows]
  refine ⟨hlen', ?_⟩
  intro j hj
  refine ⟨?_, ?_, ?_⟩
  · rw [List.getD_eq_getElem _ _ (by rw [hlen']; exact hj)]
    unfold alignedRows
    rw [List.getElem_map, List.getElem_range'_1]
  · intro e he hpos
    obtain ⟨m, hm⟩ := alignRow_observed entries maVals hlen hnodup e he
    rw [← hpos, hm]
    exact ⟨rfl, rfl⟩
  · intro habs
    exact alignRow_filled entries maVals (1 + j) habs

/-- Witness for C6 at `N = 2`, one sparse entry at position 1. -/
theorem alignedRows_spec_witness :
    (alignedRows (List.range' 1 2) [⟨1, 42, "a"⟩] [37]).length = 2 :=
  (alignedRows_spec 2 [⟨1, 42, "a"⟩] [37] rfl (by simp)).1

/-- C7 counterexample. A sparse entry at position 99 with dense axis `1..3`
is silently dropped: the alignment completes with a fully zero-filled frame
and raises nothing (there is no `PositionOutOfRangeError` anywhere in the
code). -/
theorem align_out_of_range_no_error :
    alignedRows (List.range' 1 3) [⟨99, 55, "a"⟩] [55] =
      [⟨1, 0, 0, "N/A", "Filled (0.0%)"⟩, ⟨2, 0, 0, "N/A", "Filled (0.0%)"⟩,
       ⟨3, 0, 0, "N/A", "Filled (0.0%)"⟩] := by
  simp [alignedRows, alignRow, ccMap, ccInsert, List.range']

/-- C7 amended. The alignment is total and never raises: whatever the sparse
signal contains, the frame covers exactly the dense positions `1..N`, and a
sparse position greater than `N` never appears in it — out-of-range
positions are silently ignored, not rejected. -/
theorem align_total (N : ℕ) (entries : List CCEntry) (maVals : List ℚ) :
    (alignedRows (List.range' 1 N) entries maVals).length = N ∧
    (alignedRows (List.range' 1 N) entries maVals).map (fun r => r.position) =
      List.range' 1 N ∧
    (∀ e ∈ entries, N < e.position →
      ∀ r ∈ alignedRows (List.range' 1 N) entries maVals, r.position ≠ e.position) := by
  have hpos : (alignedRows (List.range' 1 N) entries maVals).map (fun r => r.position) =
      List.range' 1 N := by
    unfold alignedRows
    rw [List.map_map]
    have hcomp : ((fun r : AlignedRow => r.position) ∘ alignRow entries maVals) = id := by
      funext pos
      show (alignRow entries maVals pos).position = pos
      unfold alignRow
      cases ccMap entries maVals pos <;> rfl
    rw [hcomp, List.map_id]
  refine ⟨by simp [alignedRows], hpos, ?_⟩
  intro e _ hN r hr heq
  have : r.position ∈ List.range' 1 N := by
    rw [← hpos]
    exact List.mem_map.mpr ⟨r, hr, rfl⟩
  rw [List.mem_range'] at this
  omega

/-- Witness for C7 (amended) with an out-of-range entry at position 99. -/
theorem align_total_witness :
    (alignedRows (List.range' 1 3) [⟨99, 55, "a"⟩] [55]).length = 3 :=
  (align_total 3 [⟨99, 55, "a"⟩] [55]).1

/-- C10. The `moving_average` in `export_plot_data.py` and the independent
copy in `plot_combined_analysis.py` are extensionally equal: on every input
they return the same output or fail with the same error. -/
theorem moving_average_eq_plot_copy (data : List ℚ) (window : ℤ) :
    moving_average data window = moving_average_plot data window := rfl

end IdrCc
